import Mathlib

/-!
Verification development for the graph-traversal tool.

The repository contains the React frontend (`App.jsx`), the `GraphVisualizer`
component, and the README.  The Flask backend (`backend/app.py`, holding the
Graph Builder and the Traversal Engine) is not part of the sources, so those
two components are modelled from the specification; the frontend pieces are
embedded from the JavaScript sources directly.

Vertices are embedded as natural-number indices `0 ≤ i < vertexCount`,
index `i` standing for the letter `'A' + i`.
-/

namespace GraphTraversal

/-- Error taxonomy from spec §7.  `vertexOutOfRange` carries the offending
token (a letter in the intended use). -/
inductive VError where
  | invalidVertexCount : VError
  | unknownRepresentation : VError
  | malformedEdgeLine : Nat → VError
  | vertexOutOfRange : String → VError
  | unknownStartVertex : VError
deriving DecidableEq, Repr

/-- One traversal event: visit a vertex, or skip an already-visited one. -/
inductive Step where
  | visit : Nat → Step
  | skip : Nat → Step
deriving DecidableEq, Repr

/-- Modelled from the spec: a Graph owns the declared vertex count and the
list of directed edges in declaration order (spec §3). -/
structure Graph where
  vertexCount : Nat
  edges : List (Nat × Nat)
deriving DecidableEq, Repr

/-- Result of a traversal: visiting order plus the full step trace (spec §3). -/
structure TraversalResult where
  order : List Nat
  steps : List Step
deriving DecidableEq, Repr

/-- Traversal kind. -/
inductive Kind where
  | bfs : Kind
  | dfs : Kind
deriving DecidableEq, Repr

/-- Split a character list at every character matched by `p`, keeping empty
pieces — the behavior of JS `String.split` with a one-character separator
and of Python-style line splitting. -/
def splitBy (p : Char → Bool) : List Char → List (List Char)
  | [] => [[]]
  | c :: cs =>
    match splitBy p cs with
    | [] => [[c]]
    | t :: ts => if p c then [] :: t :: ts else (c :: t) :: ts

/-- The lines of a text, split at every newline. -/
def linesOf (s : String) : List String :=
  (splitBy (fun c => c == '\n') s.data).map String.mk

/-- Leading and trailing whitespace removed — the behavior of JS
`String.trim`. -/
def trimChars (cs : List Char) : List Char :=
  ((cs.dropWhile Char.isWhitespace).reverse.dropWhile Char.isWhitespace).reverse

/-- Modelled from the spec: tokenize one edge line into whitespace-separated
tokens; a line with no tokens is blank (spec §4.1). -/
def tokensOf (line : String) : List String :=
  ((splitBy Char.isWhitespace line.data).map String.mk).filter
    (fun t => t ≠ "")

/-- Modelled from the spec: map a token to a vertex index when it is a single
letter, case-insensitive, normalized to uppercase (spec §4.1). -/
def letterIdx (t : String) : Option Nat :=
  match t.toList with
  | [c] =>
    let u := c.toUpper
    if 'A' ≤ u ∧ u ≤ 'Z' then some (u.toNat - 'A'.toNat) else none
  | _ => none

/-- Pair each line with its 1-based line number, starting from `i`. -/
def numberFrom (i : Nat) : List String → List (Nat × String)
  | [] => []
  | l :: ls => (i, l) :: numberFrom (i + 1) ls

/-- Modelled from the spec: parse numbered edge lines.  Blank lines are
skipped silently; a non-blank line must tokenize into exactly two tokens,
otherwise `MalformedEdgeLine(lineNumber)`; each token must map to a vertex
below `vc`, otherwise `VertexOutOfRange` (spec §4.1). -/
def parseLines (vc : Nat) : List (Nat × String) → Except VError (List (Nat × Nat))
  | [] => .ok []
  | (ln, line) :: rest =>
    match tokensOf line with
    | [] => parseLines vc rest
    | [a, b] =>
      match letterIdx a with
      | none => .error (.vertexOutOfRange a)
      | some u =>
        match letterIdx b with
        | none => .error (.vertexOutOfRange b)
        | some v =>
          if u < vc then
            if v < vc then
              match parseLines vc rest with
              | .error e => .error e
              | .ok es => .ok ((u, v) :: es)
            else .error (.vertexOutOfRange b)
          else .error (.vertexOutOfRange a)
    | _ => .error (.malformedEdgeLine ln)

/-- Modelled from the spec: Graph Builder working on an already-split list of
lines (spec §4.1).  The representation must be `"list"` or `"matrix"`; both
drive the same parsing logic. -/
def buildFromLines (vc : Nat) (rep : String) (lines : List String) :
    Except VError Graph :=
  if vc < 1 ∨ 26 < vc then .error .invalidVertexCount
  else if rep ≠ "list" ∧ rep ≠ "matrix" then .error .unknownRepresentation
  else
    match parseLines vc (numberFrom 1 lines) with
    | .error e => .error e
    | .ok es => .ok ⟨vc, es⟩

/-- Modelled from the spec: `build(vertexCount, representation, edgeText)`
(spec §4.1), splitting the edge text into lines. -/
def build (vc : Nat) (rep : String) (edgeText : String) : Except VError Graph :=
  buildFromLines vc rep (linesOf edgeText)

/-- Adjacency of `u`: targets of the edges out of `u`, in declaration order
(spec §3, Adjacency Structure). -/
def neighbors (g : Graph) (u : Nat) : List Nat :=
  (g.edges.filter (fun e => e.1 == u)).map (fun e => e.2)

/-- Modelled from the spec: examine the neighbors `ns` of a dequeued vertex in
order; an unvisited neighbor is visited (appended to `order` and to the FIFO
queue `q`, with a `visit` step), a visited one yields a `skip` step
(spec §4.2 BFS step 2). -/
def bfsVisitNbrs (ns : List Nat) (order : List Nat) (steps : List Step)
    (q : List Nat) : List Nat × List Step × List Nat :=
  match ns with
  | [] => (order, steps, q)
  | v :: vs =>
    if v ∈ order then bfsVisitNbrs vs order (steps ++ [.skip v]) q
    else bfsVisitNbrs vs (order ++ [v]) (steps ++ [.visit v]) (q ++ [v])

/-- Modelled from the spec: the BFS loop — while the frontier is non-empty,
dequeue and expand (spec §4.2 BFS).  `fuel` bounds the number of dequeues;
`bfs` supplies enough fuel for the loop to drain the queue. -/
def bfsRun (g : Graph) : Nat → List Nat → List Nat → List Step →
    List Nat × List Step
  | _, [], order, steps => (order, steps)
  | 0, _ :: _, order, steps => (order, steps)
  | fuel + 1, u :: qs, order, steps =>
    match bfsVisitNbrs (neighbors g u) order steps qs with
    | (o2, s2, q2) => bfsRun g fuel q2 o2 s2

/-- Fuel that dominates the work of either traversal on `g`. -/
def traversalFuel (g : Graph) : Nat :=
  g.vertexCount + g.edges.length * (g.vertexCount + 1) + 1

/-- Modelled from the spec: BFS — mark the start visited, record its `visit`
step, enqueue it, then run the loop (spec §4.2 BFS step 1). -/
def bfs (g : Graph) (s : Nat) : TraversalResult :=
  match bfsRun g (traversalFuel g) [s] [s] [.visit s] with
  | (o, st) => ⟨o, st⟩

/-- Modelled from the spec: DFS over the pending neighbor list `ns` of the
current vertex — a visited neighbor yields a `skip` step; an unvisited one is
visited and its own neighbors are explored before the remaining `ns`
(spec §4.2 DFS).  Every recursive call consumes one unit of fuel; `dfs`
supplies enough for the full exploration. -/
def dfsGo (g : Graph) : Nat → List Nat → List Nat → List Step →
    List Nat × List Step
  | 0, _, order, steps => (order, steps)
  | _ + 1, [], order, steps => (order, steps)
  | fuel + 1, v :: vs, order, steps =>
    if v ∈ order then dfsGo g fuel vs order (steps ++ [.skip v])
    else
      match dfsGo g fuel (neighbors g v) (order ++ [v]) (steps ++ [.visit v]) with
      | (o2, s2) => dfsGo g fuel vs o2 s2

/-- Modelled from the spec: DFS — visit the start, then explore its neighbors
in adjacency order (spec §4.2 DFS steps 1–2). -/
def dfs (g : Graph) (s : Nat) : TraversalResult :=
  match dfsGo g (traversalFuel g) (neighbors g s) [s] [.visit s] with
  | (o, st) => ⟨o, st⟩

/-- Modelled from the spec: `traverse(graph, startVertex, kind)` — the start
vertex must lie in the declared range, otherwise `UnknownStartVertex`
(spec §4.2). -/
def traverse (g : Graph) (s : Nat) (k : Kind) : Except VError TraversalResult :=
  if s < g.vertexCount then
    match k with
    | .bfs => .ok (bfs g s)
    | .dfs => .ok (dfs g s)
  else .error .unknownStartVertex

/-- Letter of vertex index `i` (index 0 is `'A'`). -/
def indexLetter (i : Nat) : Char :=
  Char.ofNat ('A'.toNat + i)

/-- Modelled from the spec: the request pipeline — build the graph, resolve
the start letter to its index, traverse, and report the visiting order as
letters together with the step trace (spec §6). -/
def pipeline (vc : Nat) (rep : String) (edgeText : String) (start : Char)
    (k : Kind) : Except VError (List Char × List Step) :=
  match build vc rep edgeText with
  | .error e => .error e
  | .ok g =>
    match traverse g (start.toUpper.toNat - 'A'.toNat) k with
    | .error e => .error e
    | .ok r => .ok (r.order.map indexLetter, r.steps)

/-- The payload the frontend sends to the backend (App.jsx `handleTraversal`):
vertex count and normalized start letter (edges, representation and kind pass
through unchanged and are omitted). -/
structure Payload where
  vertices : Int
  start : String
deriving DecidableEq, Repr

/-- Uppercasing of a whole string, character by character — the behavior of
JS `String.toUpperCase` on ASCII input. -/
def toUpperStr (s : String) : String :=
  String.mk (s.data.map Char.toUpper)

/-- Is `s` a single uppercase letter?  Embeds the `/^[A-Z]$/` test of
App.jsx. -/
def isUpperLetter (s : String) : Bool :=
  match s.data with
  | [c] => decide ('A' ≤ c ∧ c ≤ 'Z')
  | _ => false

/-- Frontend validation from App.jsx `handleTraversal`: reject a vertex count
outside `[1, 26]` and a start node that is not a single letter before any
request is sent; `none` means an error message is shown and no request
happens. -/
def frontendValidate (n : Int) (startNode : String) : Option Payload :=
  if n < 1 ∨ 26 < n then none
  else if isUpperLetter (toUpperStr startNode) then
    some ⟨n, toUpperStr startNode⟩
  else none

/-- Insertion into the visualizer node set (JS `Set` keeps insertion order;
re-adding an existing element is a no-op). -/
def addNode (acc : List String) (x : String) : List String :=
  if x ∈ acc then acc else acc ++ [x]

/-- A line of `GraphVisualizer`'s edge text, trimmed and split on a single
space — the embedding of `line.trim().split(" ")`. -/
def splitSpace (line : String) : List String :=
  (splitBy (fun c => c == ' ') (trimChars line.data)).map String.mk

/-- One line's contribution to the visualizer node set: only a line whose
`splitSpace` has exactly two parts contributes its two endpoints. -/
def visStep (acc : List String) (line : String) : List String :=
  match splitSpace line with
  | [u, v] => addNode (addNode acc u) v
  | _ => acc

/-- The node set `GraphVisualizer` draws, over all lines of the edge text. -/
def visNodes (edgeText : String) : List String :=
  (linesOf edgeText).foldl visStep []

/-- The edge list `GraphVisualizer` draws, by the same parsing rule. -/
def visEdges (edgeText : String) : List (String × String) :=
  (linesOf edgeText).foldl
    (fun acc line =>
      match splitSpace line with
      | [u, v] => acc ++ [(u, v)]
      | _ => acc)
    []

/-- The fixed animation interval of `GraphVisualizer`, in milliseconds. -/
def highlightIntervalMs : Nat := 800

/-- The per-tick selections of the highlight animation in `GraphVisualizer`:
each interval tick selects `order[i]` and increments `i`; the interval is
cleared as soon as `i` reaches `order.length`.  `fuel` bounds the number of
ticks modelled. -/
def animTicks (order : List String) : Nat → Nat → List (Option String)
  | 0, _ => []
  | fuel + 1, i =>
    order[i]? :: (if i + 1 ≥ order.length then [] else animTicks order fuel (i + 1))

/-- The full selection sequence of the animation (no tick happens at all when
`order` is empty, matching the early return in the effect). -/
def animSelections (order : List String) : List String :=
  if order.length = 0 then []
  else (animTicks order order.length 0).foldr (fun o acc => o.toList ++ acc) []

/-- Reachability along directed edges (spec §4.2 step 3: connected to the
start via directed edges). -/
inductive Reach (g : Graph) : Nat → Nat → Prop where
  | refl (u : Nat) : Reach g u u
  | step {u v w : Nat} : Reach g u v → (v, w) ∈ g.edges → Reach g u w

/-- The sequence of vertices carried by the `visit` steps of a trace, in
order (spec §3: `order` is the subsequence of `visit` events in `steps`). -/
def visitsOf : List Step → List Nat
  | [] => []
  | .visit v :: rest => v :: visitsOf rest
  | .skip _ :: rest => visitsOf rest

lemma visitsOf_append (a b : List Step) :
    visitsOf (a ++ b) = visitsOf a ++ visitsOf b := by
  induction a with
  | nil => rfl
  | cons st rest ih => cases st <;> simp [visitsOf, ih]

lemma mem_neighbors {g : Graph} {u v : Nat} (h : v ∈ neighbors g u) :
    (u, v) ∈ g.edges := by
  simp only [neighbors, List.mem_map, List.mem_filter, beq_iff_eq] at h
  obtain ⟨e, ⟨he, h1⟩, h2⟩ := h
  have : e = (u, v) := by
    cases e
    simp_all
  exact this ▸ he

lemma bfsVisitNbrs_inv {g : Graph} {s : Nat} :
    ∀ (ns order : List Nat) (steps : List Step) (q o2 : List Nat)
      (s2 : List Step) (q2 : List Nat),
    bfsVisitNbrs ns order steps q = (o2, s2, q2) →
    (∀ v ∈ ns, Reach g s v) → (∀ v ∈ order, Reach g s v) → order.Nodup →
    (∀ v ∈ q, Reach g s v) → visitsOf steps = order →
    (∀ v ∈ o2, Reach g s v) ∧ o2.Nodup ∧ (∀ v ∈ q2, Reach g s v) ∧
      visitsOf s2 = o2 := by
  intro ns
  induction ns with
  | nil =>
    intro order steps q o2 s2 q2 heq hns hord hnd hq hvis
    simp only [bfsVisitNbrs, Prod.mk.injEq] at heq
    obtain ⟨rfl, rfl, rfl⟩ := heq
    exact ⟨hord, hnd, hq, hvis⟩
  | cons v vs ih =>
    intro order steps q o2 s2 q2 heq hns hord hnd hq hvis
    simp only [bfsVisitNbrs] at heq
    by_cases hv : v ∈ order
    · rw [if_pos hv] at heq
      refine ih order (steps ++ [.skip v]) q o2 s2 q2 heq ?_ hord hnd hq ?_
      · intro w hw
        exact hns w (List.mem_cons_of_mem _ hw)
      · simp [visitsOf_append, visitsOf, hvis]
    · rw [if_neg hv] at heq
      refine ih (order ++ [v]) (steps ++ [.visit v]) (q ++ [v]) o2 s2 q2 heq
        ?_ ?_ ?_ ?_ ?_
      · intro w hw
        exact hns w (List.mem_cons_of_mem _ hw)
      · intro w hw
        rcases List.mem_append.1 hw with h | h
        · exact hord w h
        · simp at h
          exact h ▸ hns v (List.mem_cons_self ..)
      · simp [List.nodup_append, hnd, List.disjoint_singleton, hv]
      · intro w hw
        rcases List.mem_append.1 hw with h | h
        · exact hq w h
        · simp at h
          exact h ▸ hns v (List.mem_cons_self ..)
      · simp [visitsOf_append, visitsOf, hvis]

lemma bfsRun_inv {g : Graph} {s : Nat} :
    ∀ (fuel : Nat) (q order : List Nat) (steps : List Step) (o2 : List Nat)
      (s2 : List Step),
    bfsRun g fuel q order steps = (o2, s2) →
    (∀ v ∈ q, Reach g s v) → (∀ v ∈ order, Reach g s v) → order.Nodup →
    visitsOf steps = order →
    (∀ v ∈ o2, Reach g s v) ∧ o2.Nodup ∧ visitsOf s2 = o2 := by
  intro fuel
  induction fuel with
  | zero =>
    intro q order steps o2 s2 heq hq hord hnd hvis
    cases q <;> simp only [bfsRun, Prod.mk.injEq] at heq <;>
      obtain ⟨rfl, rfl⟩ := heq <;> exact ⟨hord, hnd, hvis⟩
  | succ fuel ih =>
    intro q order steps o2 s2 heq hq hord hnd hvis
    cases q with
    | nil =>
      simp only [bfsRun, Prod.mk.injEq] at heq
      obtain ⟨rfl, rfl⟩ := heq
      exact ⟨hord, hnd, hvis⟩
    | cons u qs =>
      simp only [bfsRun] at heq
      rcases hmid : bfsVisitNbrs (neighbors g u) order steps qs with ⟨om, sm, qm⟩
      rw [hmid] at heq
      have hu : Reach g s u := hq u (List.mem_cons_self ..)
      have hqs : ∀ v ∈ qs, Reach g s v := fun v hv =>
        hq v (List.mem_cons_of_mem _ hv)
      have hmem : ∀ v ∈ neighbors g u, Reach g s v := fun v hv =>
        Reach.step hu (mem_neighbors hv)
      obtain ⟨h1, h2, h3, h4⟩ :=
        bfsVisitNbrs_inv (s := s) _ _ _ _ _ _ _ hmid hmem hord hnd hqs hvis
      exact ih qm om sm o2 s2 heq h3 h1 h2 h4

lemma dfsGo_inv {g : Graph} {s : Nat} :
    ∀ (fuel : Nat) (ns order : List Nat) (steps : List Step) (o2 : List Nat)
      (s2 : List Step),
    dfsGo g fuel ns order steps = (o2, s2) →
    (∀ v ∈ ns, Reach g s v) → (∀ v ∈ order, Reach g s v) → order.Nodup →
    visitsOf steps = order →
    (∀ v ∈ o2, Reach g s v) ∧ o2.Nodup ∧ visitsOf s2 = o2 := by
  intro fuel
  induction fuel with
  | zero =>
    intro ns order steps o2 s2 heq hns hord hnd hvis
    simp only [dfsGo, Prod.mk.injEq] at heq
    obtain ⟨rfl, rfl⟩ := heq
    exact ⟨hord, hnd, hvis⟩
  | succ fuel ih =>
    intro ns order steps o2 s2 heq hns hord hnd hvis
    cases ns with
    | nil =>
      simp only [dfsGo, Prod.mk.injEq] at heq
      obtain ⟨rfl, rfl⟩ := heq
      exact ⟨hord, hnd, hvis⟩
    | cons v vs =>
      simp only [dfsGo] at heq
      by_cases hv : v ∈ order
      · rw [if_pos hv] at heq
        refine ih vs order (steps ++ [.skip v]) o2 s2 heq ?_ hord hnd ?_
        · intro w hw
          exact hns w (List.mem_cons_of_mem _ hw)
        · simp [visitsOf_append, visitsOf, hvis]
      · rw [if_neg hv] at heq
        rcases hmid : dfsGo g fuel (neighbors g v) (order ++ [v])
            (steps ++ [.visit v]) with ⟨om, sm⟩
        rw [hmid] at heq
        have hvr : Reach g s v := hns v (List.mem_cons_self ..)
        have hinner := ih (neighbors g v) (order ++ [v]) (steps ++ [.visit v])
          om sm hmid
          (fun w hw => Reach.step hvr (mem_neighbors hw))
          (by
            intro w hw
            rcases List.mem_append.1 hw with h | h
            · exact hord w h
            · simp at h
              exact h ▸ hvr)
          (by simp [List.nodup_append, hnd, List.disjoint_singleton, hv])
          (by simp [visitsOf_append, visitsOf, hvis])
        obtain ⟨h1, h2, h3⟩ := hinner
        exact ih vs om sm o2 s2 heq
          (fun w hw => hns w (List.mem_cons_of_mem _ hw)) h1 h2 h3

lemma traverse_inv {g : Graph} {s : Nat} {k : Kind} {r : TraversalResult}
    (h : traverse g s k = .ok r) :
    (∀ v ∈ r.order, Reach g s v) ∧ r.order.Nodup ∧
      visitsOf r.steps = r.order := by
  unfold traverse at h
  by_cases hs : s < g.vertexCount
  · rw [if_pos hs] at h
    cases k with
    | bfs =>
      simp only [Except.ok.injEq] at h
      subst h
      unfold bfs
      rcases hb : bfsRun g (traversalFuel g) [s] [s] [.visit s] with ⟨o, st⟩
      simp only [hb]
      have base : ∀ v ∈ [s], Reach g s v := by
        intro v hv
        simp at hv
        subst hv
        exact Reach.refl _
      exact bfsRun_inv _ _ _ _ _ _ hb base base (by simp) rfl
    | dfs =>
      simp only [Except.ok.injEq] at h
      subst h
      unfold dfs
      rcases hd : dfsGo g (traversalFuel g) (neighbors g s) [s] [.visit s]
        with ⟨o, st⟩
      simp only [hd]
      have base : ∀ v ∈ [s], Reach g s v := by
        intro v hv
        simp at hv
        subst hv
        exact Reach.refl _
      exact dfsGo_inv _ _ _ _ _ _ hd
        (fun w hw => Reach.step (Reach.refl s) (mem_neighbors hw)) base
        (by simp) rfl
  · rw [if_neg hs] at h
    simp at h

lemma not_reach_of_isolated {g : Graph} {s v : Nat} (hne : v ≠ s)
    (hiso : ∀ e ∈ g.edges, e.1 ≠ v ∧ e.2 ≠ v) : ¬Reach g s v := by
  intro h
  cases h with
  | refl => exact hne rfl
  | step h' he => exact (hiso _ he).2 rfl

lemma parseLines_not_invalid {vc : Nat} :
    ∀ ls, parseLines vc ls ≠ .error VError.invalidVertexCount := by
  intro ls
  induction ls with
  | nil => simp [parseLines]
  | cons p rest ih =>
    obtain ⟨ln, line⟩ := p
    unfold parseLines
    split
    · exact ih
    · split
      · simp
      · split
        · simp
        · split
          · split
            · split
              · rename_i e heq
                simp only [ne_eq, Except.error.injEq]
                rintro rfl
                exact ih heq
              · simp
            · simp
          · simp
    · simp

lemma parseLines_cons_blank {vc ln : Nat} {line : String}
    (h : tokensOf line = []) (rest : List (Nat × String)) :
    parseLines vc ((ln, line) :: rest) = parseLines vc rest := by
  simp [parseLines, h]

lemma parseLines_skip_blank {vc : Nat} :
    ∀ (pre : List String) (i : Nat) (rest : List String),
    (∀ l ∈ pre, tokensOf l = []) →
    parseLines vc (numberFrom i (pre ++ rest)) =
      parseLines vc (numberFrom (i + pre.length) rest) := by
  intro pre
  induction pre with
  | nil => intro i rest _; rfl
  | cons l ls ih =>
    intro i rest hblank
    have hl : tokensOf l = [] := hblank l (List.mem_cons_self ..)
    have h1 : numberFrom i ((l :: ls) ++ rest) =
        (i, l) :: numberFrom (i + 1) (ls ++ rest) := rfl
    have h2 : i + 1 + ls.length = i + (l :: ls).length := by
      rw [List.length_cons]
      omega
    rw [h1, parseLines_cons_blank hl,
      ih (i + 1) rest (fun x hx => hblank x (List.mem_cons_of_mem _ hx)), h2]

lemma parseLines_malformed_head {vc : Nat} {bad : String} (i : Nat)
    (post : List String) (hne : tokensOf bad ≠ [])
    (hlen : (tokensOf bad).length ≠ 2) :
    parseLines vc (numberFrom i (bad :: post)) =
      .error (.malformedEdgeLine i) := by
  rcases ht : tokensOf bad with _ | ⟨a, _ | ⟨b, _ | ⟨c, tl⟩⟩⟩
  · exact absurd ht hne
  · simp [numberFrom, parseLines, ht]
  · rw [ht] at hlen
    simp at hlen
  · simp [numberFrom, parseLines, ht]

lemma animTicks_from (order : List String) :
    ∀ (fuel i : Nat), i < order.length → order.length - i ≤ fuel →
    animTicks order fuel i = (order.drop i).map some := by
  intro fuel
  induction fuel with
  | zero =>
    intro i hi hf
    omega
  | succ fuel ih =>
    intro i hi hf
    rw [animTicks, List.drop_eq_getElem_cons hi]
    by_cases hend : i + 1 ≥ order.length
    · have hnil : order.drop (i + 1) = [] := List.drop_eq_nil_of_le (by omega)
      rw [if_pos hend, List.getElem?_eq_getElem hi, hnil, List.map_cons,
        List.map_nil]
    · rw [if_neg hend, ih (i + 1) (by omega) (by omega),
        List.getElem?_eq_getElem hi, List.map_cons]

lemma foldr_toList_map_some (l : List String) :
    (l.map some).foldr (fun o acc => Option.toList o ++ acc) [] = l := by
  induction l with
  | nil => rfl
  | cons x xs ih =>
    simp only [List.map_cons, List.foldr_cons, ih]
    rfl

lemma mem_addNode {acc : List String} {x y : String} :
    x ∈ addNode acc y ↔ x ∈ acc ∨ x = y := by
  unfold addNode
  by_cases h : y ∈ acc
  · rw [if_pos h]
    constructor
    · exact Or.inl
    · rintro (hx | rfl)
      · exact hx
      · exact h
  · rw [if_neg h]
    simp

lemma mem_visStep {acc : List String} {l x : String} :
    x ∈ visStep acc l ↔ x ∈ acc ∨ ∃ u v,
      splitSpace l = [u, v] ∧ (x = u ∨ x = v) := by
  unfold visStep
  rcases h : splitSpace l with _ | ⟨u, _ | ⟨v, _ | ⟨w, tl⟩⟩⟩
  · simp
  · simp
  · rw [mem_addNode, mem_addNode]
    constructor
    · rintro ((hx | hx) | hx)
      · exact Or.inl hx
      · exact Or.inr ⟨u, v, rfl, Or.inl hx⟩
      · exact Or.inr ⟨u, v, rfl, Or.inr hx⟩
    · rintro (hx | ⟨u1, v1, heq, hx⟩)
      · exact Or.inl (Or.inl hx)
      · obtain ⟨rfl, rfl⟩ : u = u1 ∧ v = v1 := by
          injection heq with h1 h2
          injection h2 with h2 h3
          exact ⟨h1, h2⟩
        rcases hx with hx | hx
        · exact Or.inl (Or.inr hx)
        · exact Or.inr hx
  · simp

lemma mem_visFold :
    ∀ (lines acc : List String) (x : String),
    x ∈ lines.foldl visStep acc ↔ x ∈ acc ∨ ∃ line ∈ lines, ∃ u v,
      splitSpace line = [u, v] ∧ (x = u ∨ x = v) := by
  intro lines
  induction lines with
  | nil => simp
  | cons l ls ih =>
    intro acc x
    rw [List.foldl_cons, ih, mem_visStep]
    simp [or_assoc]

/-- Claim C1: for vertexCount 5, edges "A B", "A C", "B D", "C E" and start
vertex A, the pipeline returns order [A,B,C,D,E] for BFS and [A,B,D,C,E]
for DFS. -/
theorem example_input_orders :
    pipeline 5 "list" "A B\nA C\nB D\nC E" 'A' .bfs =
      .ok (['A', 'B', 'C', 'D', 'E'],
        [.visit 0, .visit 1, .visit 2, .visit 3, .visit 4]) ∧
    pipeline 5 "list" "A B\nA C\nB D\nC E" 'A' .dfs =
      .ok (['A', 'B', 'D', 'C', 'E'],
        [.visit 0, .visit 1, .visit 3, .visit 2, .visit 4]) :=
  ⟨rfl, rfl⟩

/-- Claim C2: for every graph, start vertex and kind on which `traverse`
succeeds, the returned order has no duplicates, every vertex in it is
reachable from the start by a directed path, unreachable vertices never
appear, and a vertex with no incident edges other than the start never
appears. -/
theorem traversal_order_invariants (g : Graph) (s : Nat) (k : Kind)
    (r : TraversalResult) (h : traverse g s k = .ok r) :
    r.order.Nodup ∧ (∀ v ∈ r.order, Reach g s v) ∧
    (∀ v, ¬Reach g s v → v ∉ r.order) ∧
    (∀ v, v ≠ s → (∀ e ∈ g.edges, e.1 ≠ v ∧ e.2 ≠ v) → v ∉ r.order) := by
  obtain ⟨h1, h2, h3⟩ := traverse_inv h
  exact ⟨h2, h1, fun v hv hm => hv (h1 v hm), fun v hne hiso hm =>
    not_reach_of_isolated hne hiso (h1 v hm)⟩

/-- Witness for the order invariants on the example graph. -/
theorem traversal_order_invariants_witness :
    ([0, 1, 2, 3, 4] : List Nat).Nodup :=
  (traversal_order_invariants ⟨5, [(0, 1), (0, 2), (1, 3), (2, 4)]⟩ 0 .bfs
    ⟨[0, 1, 2, 3, 4], [.visit 0, .visit 1, .visit 2, .visit 3, .visit 4]⟩
    (by rfl)).1

/-- Claim C3: `traverse` is deterministic — two successful runs on identical
inputs return identical order and steps. -/
theorem traverse_deterministic (g : Graph) (s : Nat) (k : Kind)
    (r1 r2 : TraversalResult) (h1 : traverse g s k = .ok r1)
    (h2 : traverse g s k = .ok r2) :
    r1.order = r2.order ∧ r1.steps = r2.steps := by
  rw [h1] at h2
  injection h2 with h
  subst h
  exact ⟨rfl, rfl⟩

/-- Witness for determinism on a concrete run. -/
theorem traverse_deterministic_witness :
    ([0, 1] : List Nat) = [0, 1] :=
  (traverse_deterministic ⟨5, [(0, 1), (0, 1)]⟩ 0 .bfs
    ⟨[0, 1], [.visit 0, .visit 1, .skip 1]⟩
    ⟨[0, 1], [.visit 0, .visit 1, .skip 1]⟩ (by rfl) (by rfl)).1

/-- Claim C4: a non-blank edge line that does not tokenize into exactly two
tokens makes the builder fail with `MalformedEdgeLine` carrying that line's
number, while blank lines are skipped silently; in particular the single
line "A" fails at line 1, and surrounding blank lines cause no error. -/
theorem malformed_and_blank_lines :
    (∀ (vc : Nat) (rep : String) (pre : List String) (bad : String)
        (post : List String),
      1 ≤ vc → vc ≤ 26 → (rep = "list" ∨ rep = "matrix") →
      (∀ l ∈ pre, tokensOf l = []) → tokensOf bad ≠ [] →
      (tokensOf bad).length ≠ 2 →
      buildFromLines vc rep (pre ++ bad :: post) =
        .error (.malformedEdgeLine (pre.length + 1))) ∧
    build 5 "list" "A" = .error (.malformedEdgeLine 1) ∧
    build 5 "list" "\nA B\n" = .ok ⟨5, [(0, 1)]⟩ := by
  refine ⟨?_, by rfl, by rfl⟩
  intro vc rep pre bad post h1 h2 h3 hpre hne hlen
  unfold buildFromLines
  rw [if_neg (by omega), if_neg (by rcases h3 with rfl | rfl <;> simp),
    parseLines_skip_blank pre 1 (bad :: post) hpre,
    parseLines_malformed_head (1 + pre.length) post hne hlen,
    Nat.add_comm 1 pre.length]

/-- Witness: two blank lines before the malformed line "A" give the error at
line 3. -/
theorem malformed_and_blank_lines_witness :
    buildFromLines 5 "list" (["", ""] ++ "A" :: ["B C"]) =
      .error (.malformedEdgeLine 3) :=
  malformed_and_blank_lines.1 5 "list" ["", ""] "A" ["B C"] (by omega)
    (by omega) (Or.inl rfl) (by decide) (by decide) (by decide)

/-- Claim C5: a vertex count outside [1, 26] is rejected with
`InvalidVertexCount` and one inside the range never produces that error; the
frontend check rejects an out-of-range count before any request is sent. -/
theorem vertex_count_validation :
    (∀ (vc : Nat) (rep edgeText : String), vc < 1 ∨ 26 < vc →
      build vc rep edgeText = .error .invalidVertexCount) ∧
    (∀ (vc : Nat) (rep edgeText : String), 1 ≤ vc → vc ≤ 26 →
      build vc rep edgeText ≠ .error .invalidVertexCount) ∧
    (∀ (n : Int) (startNode : String), n < 1 ∨ 26 < n →
      frontendValidate n startNode = none) ∧
    (∀ (n : Int) (startNode : String) (p : Payload),
      frontendValidate n startNode = some p → 1 ≤ n ∧ n ≤ 26) := by
  refine ⟨?_, ?_, ?_, ?_⟩
  · intro vc rep text h
    unfold build buildFromLines
    rw [if_pos h]
  · intro vc rep text h1 h2
    unfold build buildFromLines
    rw [if_neg (by omega)]
    by_cases hrep : rep ≠ "list" ∧ rep ≠ "matrix"
    · rw [if_pos hrep]
      simp
    · rw [if_neg hrep]
      have pn := @parseLines_not_invalid vc
        (numberFrom 1 (linesOf text))
      cases hp : parseLines vc (numberFrom 1 (linesOf text)) with
      | error e =>
        rw [hp] at pn
        simpa using pn
      | ok es => simp
  · intro n s h
    unfold frontendValidate
    rw [if_pos h]
  · intro n s p h
    unfold frontendValidate at h
    by_cases hc : n < 1 ∨ 26 < n
    · rw [if_pos hc] at h
      simp at h
    · exact ⟨by omega, by omega⟩

/-- Witness: 27 vertices are rejected everywhere, 5 are accepted. -/
theorem vertex_count_validation_witness :
    build 27 "list" "A B" = .error .invalidVertexCount ∧
    build 5 "list" "A B" ≠ .error .invalidVertexCount ∧
    frontendValidate 27 "A" = none ∧
    (1 : Int) ≤ 5 ∧ (5 : Int) ≤ 26 :=
  ⟨vertex_count_validation.1 27 "list" "A B" (by omega),
   vertex_count_validation.2.1 5 "list" "A B" (by omega) (by omega),
   vertex_count_validation.2.2.1 27 "A" (by omega),
   vertex_count_validation.2.2.2 5 "A" ⟨5, "A"⟩ (by rfl)⟩

/-- Claim C6: a start vertex outside the declared range makes `traverse`
return `UnknownStartVertex`; with 5 vertices, start Z is rejected by the
pipeline for both kinds. -/
theorem unknown_start_rejected :
    (∀ (g : Graph) (s : Nat) (k : Kind), g.vertexCount ≤ s →
      traverse g s k = .error .unknownStartVertex) ∧
    pipeline 5 "list" "A B\nA C\nB D\nC E" 'Z' .bfs =
      .error .unknownStartVertex ∧
    pipeline 5 "list" "A B\nA C\nB D\nC E" 'Z' .dfs =
      .error .unknownStartVertex := by
  refine ⟨?_, by rfl, by rfl⟩
  intro g s k h
  unfold traverse
  rw [if_neg (by omega)]

/-- Witness: start index 25 (letter Z) on a 5-vertex graph is rejected. -/
theorem unknown_start_rejected_witness :
    traverse ⟨5, [(0, 1)]⟩ 25 .bfs = .error .unknownStartVertex :=
  unknown_start_rejected.1 ⟨5, [(0, 1)]⟩ 25 .bfs (by decide)

/-- Claim C7: duplicate edges are preserved by the builder; traversal does
not fail on them, and a re-examined visited neighbor yields a `skip` step —
in general a successful traversal never emits a second `visit` of the same
vertex, and `traverse` succeeds for every in-range start. -/
theorem duplicate_edge_preserved_skip :
    build 5 "list" "A B\nA B" = .ok ⟨5, [(0, 1), (0, 1)]⟩ ∧
    traverse ⟨5, [(0, 1), (0, 1)]⟩ 0 .bfs =
      .ok ⟨[0, 1], [.visit 0, .visit 1, .skip 1]⟩ ∧
    traverse ⟨5, [(0, 1), (0, 1)]⟩ 0 .dfs =
      .ok ⟨[0, 1], [.visit 0, .visit 1, .skip 1]⟩ ∧
    (∀ (g : Graph) (s : Nat) (k : Kind), s < g.vertexCount →
      ∃ r, traverse g s k = .ok r) ∧
    (∀ (g : Graph) (s : Nat) (k : Kind) (r : TraversalResult) (v : Nat),
      traverse g s k = .ok r → (visitsOf r.steps).count v ≤ 1) := by
  refine ⟨by rfl, by rfl, by rfl, ?_, ?_⟩
  · intro g s k h
    unfold traverse
    rw [if_pos h]
    cases k
    · exact ⟨_, rfl⟩
    · exact ⟨_, rfl⟩
  · intro g s k r v h
    obtain ⟨h1, h2, h3⟩ := traverse_inv h
    rw [h3]
    exact List.nodup_iff_count_le_one.1 h2 v

/-- Witness: traversal of the duplicate-edge graph succeeds. -/
theorem duplicate_edge_preserved_skip_witness :
    ∃ r, traverse ⟨5, [(0, 1), (0, 1)]⟩ 0 .bfs = .ok r :=
  duplicate_edge_preserved_skip.2.2.2.1 ⟨5, [(0, 1), (0, 1)]⟩ 0 .bfs
    (by decide)

/-- Claim C8: for the same vertex count, edge text, start and kind, the
"list" and "matrix" choices build the same graph and the pipeline returns
identical results. -/
theorem list_matrix_equivalent :
    ∀ (vc : Nat) (edgeText : String) (start : Char) (k : Kind),
    build vc "list" edgeText = build vc "matrix" edgeText ∧
    pipeline vc "list" edgeText start k =
      pipeline vc "matrix" edgeText start k := by
  intro vc edgeText start k
  have hb : build vc "list" edgeText = build vc "matrix" edgeText := by
    unfold build buildFromLines
    by_cases hvc : vc < 1 ∨ 26 < vc
    · rw [if_pos hvc, if_pos hvc]
    · rw [if_neg hvc, if_neg hvc, if_neg (by simp), if_neg (by simp)]
  exact ⟨hb, by unfold pipeline; rw [hb]⟩

/-- Claim C9: for every non-empty order, the highlight animation selects
exactly order[0], order[1], ..., one per tick, the interval being cleared
right after the last element, with a fixed 800 ms period; the tick sequence
is the same for any sufficient fuel, so no tick happens past the end. -/
theorem highlight_animation_plays_order (order : List String)
    (h : order ≠ []) :
    animSelections order = order ∧
    (∀ fuel, order.length ≤ fuel → animTicks order fuel 0 = order.map some) ∧
    highlightIntervalMs = 800 := by
  have hpos : 0 < order.length := List.length_pos.2 h
  have hticks : ∀ fuel, order.length ≤ fuel →
      animTicks order fuel 0 = order.map some := by
    intro fuel hf
    have hdrop := animTicks_from order fuel 0 hpos (by omega)
    simpa using hdrop
  refine ⟨?_, hticks, rfl⟩
  unfold animSelections
  rw [if_neg (by omega), hticks order.length le_rfl, foldr_toList_map_some]

/-- Witness: the animation over ["A", "B", "C"] highlights exactly those. -/
theorem highlight_animation_plays_order_witness :
    animSelections ["A", "B", "C"] = ["A", "B", "C"] :=
  (highlight_animation_plays_order ["A", "B", "C"] (by decide)).1

/-- Claim C10: the nodes `GraphVisualizer` draws are exactly the letters of
lines that trim-and-split on a single space into exactly two tokens; a
double-space line contributes neither nodes nor an edge, and a vertex not on
such a line (such as an isolated start vertex) is never rendered. -/
theorem visualizer_draws_edge_letters :
    (∀ (edgeText : String) (x : String),
      x ∈ visNodes edgeText ↔ ∃ line ∈ linesOf edgeText, ∃ u v,
        splitSpace line = [u, v] ∧ (x = u ∨ x = v)) ∧
    visNodes "A  B" = [] ∧ visEdges "A  B" = [] ∧
    visNodes "A B" = ["A", "B"] := by
  refine ⟨?_, by rfl, by rfl, by rfl⟩
  intro edgeText x
  unfold visNodes
  rw [mem_visFold]
  simp

/-- Witness: "A" is rendered for the edge text "A B". -/
theorem visualizer_draws_edge_letters_witness :
    "A" ∈ visNodes "A B" :=
  (visualizer_draws_edge_letters.1 "A B" "A").2
    ⟨"A B", by decide, "A", "B", by decide, Or.inl rfl⟩


end GraphTraversal
